import Mathlib

/-!
Verification of the a2 analysis engine (src/src/analysis/a2/a2.cc).

IEEE-754 doubles are modelled exactly as the sum of a single NaN case
(`invalid`), the two infinities and a finite rational value.  Rounding and
finite-range overflow are not modelled; none of the verified properties
depends on them.
-/

/-- Model of a C++ `double`: NaN (the engine's invalid encoding and every
arithmetic NaN collapse to one case), the infinities, and exact finite
values. -/
inductive D where
  | invalid
  | ninf
  | pinf
  | fin (q : ℚ)
deriving DecidableEq, Repr

/-- Modelled from the spec: `is_param_valid` lives in a header that is not
part of src/; per the spec a value is invalid iff it is (any) NaN. -/
def is_param_valid : D → Bool
  | .invalid => false
  | _ => true

/-- Modelled from the spec: `invalid_param()` produces the reserved NaN
encoding (payloads are not modelled; `is_param_valid` ignores them). -/
def invalid_param : D := .invalid

/-- IEEE `<=` on doubles: any comparison involving NaN is false. -/
def D.le : D → D → Bool
  | .invalid, _ => false
  | _, .invalid => false
  | .ninf, _ => true
  | .fin _, .ninf => false
  | .fin a, .fin b => a ≤ b
  | .fin _, .pinf => true
  | .pinf, .pinf => true
  | .pinf, .ninf => false
  | .pinf, .fin _ => false

/-- IEEE `<` on doubles: any comparison involving NaN is false. -/
def D.lt : D → D → Bool
  | .invalid, _ => false
  | _, .invalid => false
  | .ninf, .ninf => false
  | .ninf, _ => true
  | .fin _, .ninf => false
  | .fin a, .fin b => a < b
  | .fin _, .pinf => true
  | .pinf, _ => false

/-- IEEE negation. -/
def D.neg : D → D
  | .invalid => .invalid
  | .ninf => .pinf
  | .pinf => .ninf
  | .fin q => .fin (-q)

/-- IEEE addition (NaN propagates, opposite infinities give NaN). -/
def D.add : D → D → D
  | .invalid, _ => .invalid
  | _, .invalid => .invalid
  | .ninf, .pinf => .invalid
  | .pinf, .ninf => .invalid
  | .ninf, _ => .ninf
  | _, .ninf => .ninf
  | .pinf, _ => .pinf
  | _, .pinf => .pinf
  | .fin a, .fin b => .fin (a + b)

/-- IEEE subtraction. -/
def D.sub (a b : D) : D := D.add a (D.neg b)

/-- IEEE multiplication (zero times infinity gives NaN). -/
def D.mul : D → D → D
  | .invalid, _ => .invalid
  | _, .invalid => .invalid
  | .fin a, .fin b => .fin (a * b)
  | .fin a, .pinf => if 0 < a then .pinf else if a < 0 then .ninf else .invalid
  | .fin a, .ninf => if 0 < a then .ninf else if a < 0 then .pinf else .invalid
  | .pinf, .fin b => if 0 < b then .pinf else if b < 0 then .ninf else .invalid
  | .ninf, .fin b => if 0 < b then .ninf else if b < 0 then .pinf else .invalid
  | .pinf, .pinf => .pinf
  | .pinf, .ninf => .ninf
  | .ninf, .pinf => .ninf
  | .ninf, .ninf => .pinf

/-- IEEE division (the model has a single zero, so finite/0 takes the sign
of the numerator and 0/0 is NaN). -/
def D.div : D → D → D
  | .invalid, _ => .invalid
  | _, .invalid => .invalid
  | .fin a, .fin b =>
      if b = 0 then (if a = 0 then .invalid else if 0 < a then .pinf else .ninf)
      else .fin (a / b)
  | .fin _, .pinf => .fin 0
  | .fin _, .ninf => .fin 0
  | .pinf, .fin b => if 0 ≤ b then .pinf else .ninf
  | .ninf, .fin b => if 0 ≤ b then .ninf else .pinf
  | .pinf, _ => .invalid
  | .ninf, _ => .invalid

/-- `struct Thresholds { double min, max; }` from a2.cc. -/
structure Thresholds where
  min : D
  max : D
deriving DecidableEq, Repr

/-- a2.cc line 1114: `is_param_valid(param) && thresholds.min <= param &&
thresholds.max >= param`. -/
def is_valid_and_inside (param : D) (thresholds : Thresholds) : Bool :=
  is_param_valid param && D.le thresholds.min param && D.le param thresholds.max

/-- Modelled from the spec: `in_range` is defined in a2_impl.h, which is not
part of src/; per the spec Thresholds define an inclusive-range membership
test (NaN comparisons are false). -/
def in_range (t : Thresholds) (v : D) : Bool :=
  D.le t.min v && D.le v t.max

/-- `std::min(a, b)` as specified: `(b < a) ? b : a` under IEEE `<`. -/
def stdMin (a b : D) : D := if D.lt b a then b else a

/- ===============================================
 * Aggregate operators (a2.cc)
 * =============================================== -/

/-- a2.cc `aggregate_sum_step`: sum all valid-and-inside elements; output is
invalid when no element qualified. -/
def aggregate_sum_step (input : List D) (thresholds : Thresholds) : D :=
  let r := input.foldl
    (fun (acc : D × Bool) x =>
      if is_valid_and_inside x thresholds then (D.add acc.1 x, true) else acc)
    (D.fin 0, false)
  if r.2 then r.1 else invalid_param

/-- a2.cc `aggregate_multiplicity_step`: output starts at 0.0 and is
incremented once per valid-and-inside element. -/
def aggregate_multiplicity_step (input : List D) (thresholds : Thresholds) : D :=
  input.foldl
    (fun acc x =>
      if is_valid_and_inside x thresholds then D.add acc (D.fin 1) else acc)
    (D.fin 0)

/-- a2.cc `aggregate_min_step`, modelled bug-for-bug: inside the loop the
C++ source contains `double result = std::numeric_limits<double>::max();`
which declares a NEW block-local variable shadowing the accumulator, so the
accumulator is never reset away from the initial `invalid_param()`; the
subsequent `std::min(result, input[i])` then always returns the NaN
accumulator. -/
def aggregate_min_step (input : List D) (thresholds : Thresholds) : D :=
  input.foldl
    (fun result x =>
      if is_valid_and_inside x thresholds then
        stdMin result x
      else result)
    invalid_param

/-- a2.cc `aggregate_max_step` (the correct counterpart of the min
reduction): the accumulator is reset to the lowest double before the first
accumulation. -/
def aggregate_max_step (input : List D) (thresholds : Thresholds) : D :=
  input.foldl
    (fun result x =>
      if is_valid_and_inside x thresholds then
        let r := if is_param_valid result then result else x
        if D.lt r x then x else r
      else result)
    invalid_param

/-- a2.cc `struct SumAndValidCount`. -/
structure SumAndValidCount where
  sum : D
  validCount : Nat
deriving DecidableEq, Repr

/-- a2.cc `SumAndValidCount::mean()`: `sum / (double)validCount`. -/
def SumAndValidCount.mean (sv : SumAndValidCount) : D :=
  D.div sv.sum (D.fin sv.validCount)

/-- a2.cc `calculate_sum_and_valid_count` (line 1359). -/
def calculate_sum_and_valid_count (input : List D) (thresholds : Thresholds) :
    SumAndValidCount :=
  input.foldl
    (fun sv x =>
      if is_valid_and_inside x thresholds then
        ⟨D.add sv.sum x, sv.validCount + 1⟩
      else sv)
    ⟨D.fin 0, 0⟩

/-- a2.cc `aggregate_mean_step`: mean of the valid elements, invalid when
none qualified. -/
def aggregate_mean_step (input : List D) (thresholds : Thresholds) : D :=
  let sv := calculate_sum_and_valid_count input thresholds
  if sv.validCount ≠ 0 then sv.mean else invalid_param

/-- Real-valued double model used only for the sigma output, whose final
`std::sqrt` leaves the rationals. -/
inductive DR where
  | invalid
  | ninf
  | pinf
  | fin (r : ℝ)

/-- IEEE `sqrt` into the real-valued model (sqrt of a negative is NaN). -/
noncomputable def dsqrt : D → DR
  | .invalid => .invalid
  | .ninf => .invalid
  | .pinf => .pinf
  | .fin q => if q < 0 then .invalid else .fin (Real.sqrt q)

/-- The squared-deviation accumulation loop of `aggregate_sigma_step`:
`sigma += d * d` with `d = input[i] - mean` over the valid-and-inside
elements. -/
def aggregate_sigma_accum (input : List D) (thresholds : Thresholds) (mean : D) : D :=
  input.foldl
    (fun s x =>
      if is_valid_and_inside x thresholds then
        let d := D.sub x mean
        D.add s (D.mul d d)
      else s)
    (D.fin 0)

/-- a2.cc `aggregate_sigma_step`: population standard deviation of the
valid-and-inside elements, invalid when none qualified. -/
noncomputable def aggregate_sigma_step (input : List D) (thresholds : Thresholds) : DR :=
  let sv := calculate_sum_and_valid_count input thresholds
  let sigma := aggregate_sigma_accum input thresholds sv.mean
  if sv.validCount ≠ 0 then dsqrt (D.div sigma (D.fin sv.validCount))
  else DR.invalid

/- ===============================================
 * RangeFilter (a2.cc line 1768)
 * =============================================== -/

/-- a2.cc `range_filter_step`: pass elements inside (or, inverted, outside)
the threshold window, otherwise write `invalid_param()`. -/
def range_filter_step (input : List D) (thresholds : Thresholds) (invert : Bool) :
    List D :=
  if invert then
    input.map (fun x => if !(in_range thresholds x) then x else invalid_param)
  else
    input.map (fun x => if in_range thresholds x then x else invalid_param)

/- ===============================================
 * Histograms (a2.cc line 2662)
 * =============================================== -/

/-- `struct Binning { double min, range; }`; finite configuration values. -/
structure Binning where
  min : ℚ
  range : ℚ
deriving DecidableEq, Repr

/-- The H1D fields used by `fill_h1d` (the struct itself lives in a2.h,
which is not part of src/; the field set is taken from the uses in a2.cc).
Count fields are doubles in the source and stay exact rationals here. -/
structure H1D where
  binning : Binning
  size : Nat
  binningFactor : ℚ
  data : List ℚ
  underflow : ℚ
  overflow : ℚ
  entryCount : ℚ
deriving DecidableEq, Repr

/-- A C `(s32)` cast of a finite double: truncation toward zero. -/
def dtrunc (q : ℚ) : ℤ := if 0 ≤ q then ⌊q⌋ else ⌈q⌉

/-- a2.cc `fill_h1d` (line 2662): branch on `x < min`, `x >= min + range`,
`isnan(x)`, else bin via `(s32)((x - min) * binningFactor)`.  After the two
comparisons the remaining cases are exactly NaN and an in-range finite
value. -/
def fill_h1d (histo : H1D) (x : D) : H1D :=
  if D.lt x (.fin histo.binning.min) then
    { histo with underflow := histo.underflow + 1 }
  else if D.le (.fin (histo.binning.min + histo.binning.range)) x then
    { histo with overflow := histo.overflow + 1 }
  else
    match x with
    | .fin q =>
        let bin := (dtrunc ((q - histo.binning.min) * histo.binningFactor)).toNat
        { histo with
            data := histo.data.set bin (histo.data.getD bin 0 + 1),
            entryCount := histo.entryCount + 1 }
    | _ => histo

/- ===============================================
 * Graph driver model: operators + a2_end_event (a2.cc line 3713)
 * =============================================== -/

/-- Parameter-vector storage: operators reference the pipes of their
predecessors, so pipes live in a shared environment indexed by pipe id. -/
def Env : Type := List (List D)

def getPipe (env : Env) (p : Nat) : List D := env.getD p []

def setPipe (env : Env) (p : Nat) (v : List D) : Env := env.set p v

/-- a2.cc `calibrate` (line 455): affine remap of valid params, invalid
passes through. -/
def calibrate (param paramMin calibMin calibFactor : D) : D :=
  if is_param_valid param then
    D.add (D.mul (D.sub param paramMin) calibFactor) calibMin
  else param

/-- The per-kind payload (`void *d` plus the operator-type tag in the
source) for the modelled subset of operator kinds. -/
inductive OpData where
  | calibration (calibFactors : List D)
  | keepPrevious (keepValid : Bool) (previousInput : List D)
  | rangeFilter (thresholds : Thresholds) (invert : Bool)
  | aggregateSum (thresholds : Thresholds)
  | aggregateMultiplicity (thresholds : Thresholds)
  | aggregateMin (thresholds : Thresholds)
  | aggregateMax (thresholds : Thresholds)
  | aggregateMean (thresholds : Thresholds)
  | h1dSink (histos : List H1D)
deriving DecidableEq, Repr

/-- The `Operator` fields needed by the modelled step functions.  All
modelled kinds have one input; sinks write no pipe.  `conditionIndex < 0`
(`Operator::NoCondition`) means the operator is not gated. -/
structure Operator where
  input : Nat
  inputLowerLimits : List D
  output : Nat
  outputLowerLimits : List D
  conditionIndex : Int
  d : OpData
deriving DecidableEq, Repr

instance : Inhabited Operator :=
  ⟨⟨0, [], 0, [], -1, .aggregateSum ⟨.ninf, .pinf⟩⟩⟩

/-- a2.cc `calibration_step` (line 472): per element,
`out[idx] = calibrate(in[idx], inputLowerLimits[idx], outputLowerLimits[idx],
calibFactors[idx])`. -/
def calibration_step (input ill oll calibFactors : List D) : List D :=
  (List.range input.length).map fun idx =>
    calibrate (input.getD idx invalid_param) (ill.getD idx invalid_param)
      (oll.getD idx invalid_param) (calibFactors.getD idx invalid_param)

/-- a2.cc `keep_previous_step` (line 707): emit the stored previous input,
then update the store from the current input (only for valid values when
`keepValid` is set).  Returns (output, new stored state). -/
def keep_previous_step (input previousInput : List D) (keepValid : Bool) :
    List D × List D :=
  let out := (List.range input.length).map fun idx =>
    previousInput.getD idx invalid_param
  let prev := (List.range input.length).map fun idx =>
    let inp := input.getD idx invalid_param
    if !keepValid || is_param_valid inp then inp
    else previousInput.getD idx invalid_param
  (out, prev)

/-- a2.cc `h1d_sink_step` (line 2822): fill one histogram per input element
(input and histogram array have equal sizes by construction). -/
def h1d_sink_step (histos : List H1D) (input : List D) : List H1D :=
  List.zipWith fill_h1d histos input

/-- Dispatch through the modelled `OperatorTable`: run one operator's step
function, returning the updated pipe environment and the updated operator
(per-operator state lives inside `OpData`). -/
def step_operator (env : Env) (op : Operator) : Env × Operator :=
  match op.d with
  | .calibration calibFactors =>
      (setPipe env op.output
        (calibration_step (getPipe env op.input) op.inputLowerLimits
          op.outputLowerLimits calibFactors), op)
  | .keepPrevious keepValid previousInput =>
      let r := keep_previous_step (getPipe env op.input) previousInput keepValid
      (setPipe env op.output r.1,
       { op with d := .keepPrevious keepValid r.2 })
  | .rangeFilter thresholds invert =>
      (setPipe env op.output
        (range_filter_step (getPipe env op.input) thresholds invert), op)
  | .aggregateSum thresholds =>
      (setPipe env op.output [aggregate_sum_step (getPipe env op.input) thresholds], op)
  | .aggregateMultiplicity thresholds =>
      (setPipe env op.output
        [aggregate_multiplicity_step (getPipe env op.input) thresholds], op)
  | .aggregateMin thresholds =>
      (setPipe env op.output [aggregate_min_step (getPipe env op.input) thresholds], op)
  | .aggregateMax thresholds =>
      (setPipe env op.output [aggregate_max_step (getPipe env op.input) thresholds], op)
  | .aggregateMean thresholds =>
      (setPipe env op.output [aggregate_mean_step (getPipe env op.input) thresholds], op)
  | .h1dSink histos =>
      (env, { op with d := .h1dSink (h1d_sink_step histos (getPipe env op.input)) })

/-- a2.cc line 3745: `op->conditionIndex < 0 ||
a2->conditionBits.test(op->conditionIndex)`. -/
def conditionOk (bits : List Bool) (op : Operator) : Bool :=
  op.conditionIndex < 0 || bits.getD op.conditionIndex.toNat false

/-- a2.cc `a2_end_event` (line 3713): step the operators of one event index
in ARRAY order (the source comment states the precondition "operators must
be sorted by rank"); an operator whose condition bit is unset is skipped
(the TODO to invalidate its outputs is not implemented). -/
def a2_end_event (bits : List Bool) (env : Env) : List Operator → Env × List Operator
  | [] => (env, [])
  | op :: rest =>
      let r := if conditionOk bits op then step_operator env op else (env, op)
      let rr := a2_end_event bits r.1 rest
      (rr.1, r.2 :: rr.2)

/- ===============================================
 * Extractor data source (a2.cc line 255)
 * =============================================== -/

/-- Modelled from the spec: the `MultiWordFilter` bit-filter state machine
(data_filter.h/cc are not part of src/).  Per the spec it consumes one data
word at a time (with its word index), reports when the multi-word pattern
has completed, yields the decoded address and data fields of a completed
match, and can have its completion state cleared. -/
structure FilterModel (σ : Type) where
  processData : σ → Nat → Nat → Bool × σ
  extractA : σ → Nat
  extractD : σ → Nat
  clearCompletion : σ → σ

/-- The `Extractor` fields used by `extractor_process_module_data`.  The
RNG is an explicit stream of uniform `[0,1)` draws plus a cursor. -/
structure Extractor (σ : Type) where
  filter : σ
  requiredCompletions : Nat
  currentCompletions : Nat
  noAddedRandom : Bool
  rng : Nat → ℚ
  rngIndex : Nat

/-- The `DataSource` fields owned by an extractor data source. -/
structure DataSourceState (σ : Type) where
  ex : Extractor σ
  output : List D
  hitCounts : List ℚ

/-- a2.cc `extractor_begin_event` (line 246): clear filter completion
state, zero the completion counter, invalidate the whole output vector. -/
def extractor_begin_event {σ : Type} (fm : FilterModel σ) (ds : DataSourceState σ) :
    DataSourceState σ :=
  { ds with
      ex := { ds.ex with
                filter := fm.clearCompletion ds.ex.filter,
                currentCompletions := 0 },
      output := List.replicate ds.output.length invalid_param }

/-- One write attempt of `extractor_process_module_data`: only if the
output slot at the decoded address is still invalid, add the optional
jitter draw, store the value and bump the hit count. -/
def extractor_write (noAddedRandom : Bool) (rng : Nat → ℚ) (rngIndex : Nat)
    (output : List D) (hitCounts : List ℚ) (address value : Nat) :
    List D × List ℚ × Nat :=
  if !is_param_valid (output.getD address invalid_param) then
    let v : ℚ := if !noAddedRandom then (value : ℚ) + rng rngIndex else (value : ℚ)
    (output.set address (.fin v),
     hitCounts.set address (hitCounts.getD address 0 + 1),
     if !noAddedRandom then rngIndex + 1 else rngIndex)
  else (output, hitCounts, rngIndex)

/-- a2.cc `extractor_process_module_data` (line 255): feed each word through
the filter; on each completed match bump the completion counter; when it
reaches `requiredCompletions`, reset it and attempt a first-hit-wins write
at the decoded address; clear the filter's completion state after every
match. -/
def extractor_process_module_data {σ : Type} (fm : FilterModel σ) :
    DataSourceState σ → List Nat → Nat → DataSourceState σ
  | ds, [], _ => ds
  | ds, w :: rest, wordIndex =>
      let pr := fm.processData ds.ex.filter w wordIndex
      if pr.1 then
        let cc := ds.ex.currentCompletions + 1
        if cc ≥ ds.ex.requiredCompletions then
          let address := fm.extractA pr.2
          let value := fm.extractD pr.2
          let wr := extractor_write ds.ex.noAddedRandom ds.ex.rng ds.ex.rngIndex
            ds.output ds.hitCounts address value
          extractor_process_module_data fm
            { ds with
                ex := { ds.ex with
                          filter := fm.clearCompletion pr.2,
                          currentCompletions := 0,
                          rngIndex := wr.2.2 },
                output := wr.1,
                hitCounts := wr.2.1 }
            rest (wordIndex + 1)
        else
          extractor_process_module_data fm
            { ds with
                ex := { ds.ex with
                          filter := fm.clearCompletion pr.2,
                          currentCompletions := cc } }
            rest (wordIndex + 1)
      else
        extractor_process_module_data fm
          { ds with ex := { ds.ex with filter := pr.2 } }
          rest (wordIndex + 1)

/-- Reference trace of the filter alone: the (address, data) pairs decoded
at each completed match of the word sequence. -/
def completions {σ : Type} (fm : FilterModel σ) :
    σ → List Nat → Nat → List (Nat × Nat)
  | _, [], _ => []
  | fs, w :: rest, wordIndex =>
      let pr := fm.processData fs w wordIndex
      if pr.1 then
        (fm.extractA pr.2, fm.extractD pr.2) ::
          completions fm (fm.clearCompletion pr.2) rest (wordIndex + 1)
      else
        completions fm pr.2 rest (wordIndex + 1)

/-- The matches that trigger a write attempt: starting from completion
counter `c`, every match that takes the counter to `required` (which then
resets to 0). -/
def attemptsFrom {α : Type} (required : Nat) : Nat → List α → List α
  | _, [] => []
  | c, x :: xs =>
      if c + 1 ≥ required then x :: attemptsFrom required 0 xs
      else attemptsFrom required (c + 1) xs

/-- Fold-state for replaying write attempts. -/
structure WriteState where
  output : List D
  hitCounts : List ℚ
  rngIndex : Nat
deriving DecidableEq, Repr

/-- Replay one write attempt on a `WriteState`. -/
def applyAttempt (noAddedRandom : Bool) (rng : Nat → ℚ) (ws : WriteState)
    (av : Nat × Nat) : WriteState :=
  let wr := extractor_write noAddedRandom rng ws.rngIndex ws.output ws.hitCounts
    av.1 av.2
  ⟨wr.1, wr.2.1, wr.2.2⟩

/- ===============================================
 * Export sink (a2.cc line 3239)
 * =============================================== -/

/-- One unit of the export wire format: a 16-bit word or an IEEE double. -/
inductive ExportToken where
  | u16 (n : Nat)
  | f64 (d : D)
deriving DecidableEq, Repr

/-- The valid-element indices of a parameter vector in traversal order
(a2.cc line 3347, the ascending index loop of
`write_indexed_parameter_vector`). -/
def validIndicesAux : List D → Nat → List Nat
  | [], _ => []
  | x :: xs, i =>
      if is_param_valid x then i :: validIndicesAux xs (i + 1)
      else validIndicesAux xs (i + 1)

/-- a2.cc `write_indexed_parameter_vector` (line 3327) as the token
sequence it writes on a healthy stream: a u16 valid-count, the ascending
u16 indices of the valid elements, then their values as doubles. -/
def write_indexed_parameter_vector (vec : List D) : List ExportToken :=
  ExportToken.u16 (vec.countP (fun x => is_param_valid x)) ::
    ((validIndicesAux vec 0).map ExportToken.u16 ++
      (vec.filter (fun x => is_param_valid x)).map ExportToken.f64)

/-- Modelled from the spec: the decoder of the sparse encoding (the spec
describes the wire format; no decoder exists in src/).  Reads the u16
count, that many u16 indices, that many doubles, and scatters the values
over an all-invalid vector of the given size. -/
def decode_indexed_parameter_vector (size : Nat) :
    List ExportToken → Option (List D)
  | ExportToken.u16 n :: rest =>
      if rest.length = 2 * n then
        let idxToks := rest.take n
        let valToks := rest.drop n
        let idxs := idxToks.filterMap (fun t =>
          match t with | ExportToken.u16 i => some i | _ => none)
        let vals := valToks.filterMap (fun t =>
          match t with | ExportToken.f64 d => some d | _ => none)
        if idxs.length = n ∧ vals.length = n then
          some ((idxs.zip vals).foldl
            (fun acc p => acc.set p.1 p.2)
            (List.replicate size invalid_param))
        else none
      else none
  | _ => none

/-- The output stream of an export sink.  `plan` is the failure behaviour
of the environment: for write operation number `k`, `plan k = none` means
success and `plan k = some j` means the stream throws after accepting `j`
tokens of that operation.  A failure clears the stream's good flag, which
nothing ever sets again (mirrors an `std::ostream` failbit with exceptions
enabled). -/
structure OStream where
  plan : Nat → Option Nat
  opCount : Nat
  goodFlag : Bool
  written : List ExportToken

/-- One guarded write operation (the sequence of stream writes issued for
one input vector): on failure the accepted prefix is kept, the good flag
drops, and the `Bool` reports the thrown exception. -/
def writeVec (s : OStream) (tks : List ExportToken) : OStream × Bool :=
  match s.plan s.opCount with
  | none =>
      ({ s with written := s.written ++ tks, opCount := s.opCount + 1 }, false)
  | some j =>
      ({ s with written := s.written ++ tks.take j,
                goodFlag := false,
                opCount := s.opCount + 1 }, true)

/-- The `ExportSinkData` fields used by the step functions.  `stream = none`
models a null ostream pointer (never opened). -/
structure ExportSinkData where
  filename : String
  condIndex : Int
  stream : Option OStream
  lastError : Option String
  bytesWritten : Nat
  eventsWritten : Nat

/-- Byte count of a token block (u16 = 2 bytes, double = 8 bytes). -/
def tokenBytes (tks : List ExportToken) : Nat :=
  tks.foldl (fun acc t => acc + match t with | .u16 _ => 2 | .f64 _ => 8) 0

/-- The guarded write loop shared by both sink step functions: write each
input's token block while the stream stays good; stop at the first thrown
exception.  Returns (stream, bytes successfully accounted, threw). -/
def export_write_loop (s : OStream) : List (List ExportToken) → OStream × Nat × Bool
  | [] => (s, 0, false)
  | tks :: rest =>
      if !s.goodFlag then (s, 0, false)
      else
        let wr := writeVec s tks
        if wr.2 then (wr.1, 0, true)
        else
          let r := export_write_loop wr.1 rest
          (r.1, tokenBytes tks + r.2.1, r.2.2)

/-- The part of `export_sink_full_step`/`export_sink_sparse_step` after the
input vectors have been encoded: the condition-input gate, the
`outp->good()` guard, the try/catch that records the last error, and the
bytes/events accounting. -/
def export_sink_guarded_step (d : ExportSinkData) (condValue : Option D)
    (blocks : List (List ExportToken)) : ExportSinkData :=
  match d.stream with
  | none => d
  | some s =>
      match condValue with
      | some cv =>
          if !is_param_valid cv then d
          else
            if s.goodFlag then
              let r := export_write_loop s blocks
              if r.2.2 then
                { d with stream := some r.1,
                         lastError := some ("Error writing to output file " ++ d.filename) }
              else
                { d with stream := some r.1,
                         bytesWritten := d.bytesWritten + r.2.1,
                         eventsWritten := d.eventsWritten + 1 }
            else d
      | none =>
          if s.goodFlag then
            let r := export_write_loop s blocks
            if r.2.2 then
              { d with stream := some r.1,
                       lastError := some ("Error writing to output file " ++ d.filename) }
            else
              { d with stream := some r.1,
                       bytesWritten := d.bytesWritten + r.2.1,
                       eventsWritten := d.eventsWritten + 1 }
          else d

/-- a2.cc `export_sink_full_step` (line 3272): raw doubles of every data
input; `condValue` is `inputs[inputCount-1][condIndex]` when a condition is
configured. -/
def export_sink_full_step (d : ExportSinkData) (condValue : Option D)
    (dataInputs : List (List D)) : ExportSinkData :=
  export_sink_guarded_step d condValue
    (dataInputs.map (fun v => v.map ExportToken.f64))

/-- a2.cc `export_sink_sparse_step` (line 3370): sparse-encode every data
input via `write_indexed_parameter_vector`. -/
def export_sink_sparse_step (d : ExportSinkData) (condValue : Option D)
    (dataInputs : List (List D)) : ExportSinkData :=
  export_sink_guarded_step d condValue
    (dataInputs.map write_indexed_parameter_vector)

/-- The (0,10)-binning, 10-bin histogram of the claim, with
`binningFactor = binCount / range = 1` as documented in a2.cc. -/
def testH1D : H1D :=
  ⟨⟨0, 10⟩, 10, 1, List.replicate 10 0, 0, 0, 0⟩

/-- Calibration operator of the chain: reads pipe 0, writes pipe 1. -/
def chainCalibOp (pm cm f : List ℚ) : Operator :=
  ⟨0, pm.map D.fin, 1, cm.map D.fin, -1, .calibration (f.map D.fin)⟩

/-- Sum operator of the chain: reads pipe 1, writes pipe 2, thresholds
resolved to the infinite window. -/
def chainSumOp : Operator :=
  ⟨1, [], 2, [], -1, .aggregateSum ⟨D.ninf, D.pinf⟩⟩

/-- Initial environment of one event: the extractor produced `xs`, the two
downstream output pipes are still invalidated. -/
def chainEnv (xs : List ℚ) : Env :=
  [xs.map D.fin, List.replicate xs.length invalid_param, [invalid_param]]

/-- The calibrated extractor outputs, elementwise
`(x - paramMin) * calibFactor + calibMin`. -/
def calibratedValues (xs pm cm f : List ℚ) : List ℚ :=
  (List.range xs.length).map fun i =>
    (xs.getD i 0 - pm.getD i 0) * f.getD i 0 + cm.getD i 0

/-- The decoded (address, value) completions of one event's word stream,
starting from the begin-event state. -/
def eventCompletions {σ : Type} (fm : FilterModel σ) (ds : DataSourceState σ)
    (words : List Nat) : List (Nat × Nat) :=
  completions fm (extractor_begin_event fm ds).ex.filter words 0

/-- The data-source state after begin-event and one
`extractor_process_module_data` call. -/
def eventResult {σ : Type} (fm : FilterModel σ) (ds : DataSourceState σ)
    (words : List Nat) : DataSourceState σ :=
  extractor_process_module_data fm (extractor_begin_event fm ds) words 0

/-- The value stored by a write attempt: the decoded data field plus the
optional uniform jitter draw. -/
def jitteredValue {σ : Type} (ds : DataSourceState σ) (v : Nat) : ℚ :=
  if !ds.ex.noAddedRandom then (v : ℚ) + ds.ex.rng ds.ex.rngIndex else (v : ℚ)

/-- A concrete single-word filter instance: a word matches when it is at
least 100; the low two bits of the matched word are the address field, the
rest the data field. -/
def witnessFilter : FilterModel Nat where
  processData := fun _ w _ => (decide (w ≥ 100), w)
  extractA := fun s => s % 4
  extractD := fun s => s / 8
  clearCompletion := fun _ => 0

/-- A concrete extractor data source with 4 output slots, two required
completions and jitter disabled. -/
def witnessDS : DataSourceState Nat where
  ex := { filter := 0, requiredCompletions := 2, currentCompletions := 0,
          noAddedRandom := true, rng := fun _ => 0, rngIndex := 0 }
  output := List.replicate 4 invalid_param
  hitCounts := List.replicate 4 0

/-- A concrete sink whose stream has already failed. -/
def failedSink : ExportSinkData where
  filename := "out.bin"
  condIndex := -1
  stream := some { plan := fun _ => none, opCount := 3, goodFlag := false,
                   written := [] }
  lastError := some "Error writing to output file out.bin"
  bytesWritten := 16
  eventsWritten := 1

/- ===============================================
 * Shared helper lemmas
 * =============================================== -/

lemma stdMin_invalid (x : D) : stdMin D.invalid x = D.invalid := by
  cases x <;> rfl

lemma foldl_fixed_of_skip {α β : Type} (f : β → α → β) (l : List α) (b : β)
    (h : ∀ x ∈ l, ∀ acc, f acc x = acc) : l.foldl f b = b := by
  induction l generalizing b with
  | nil => rfl
  | cons x xs ih =>
      rw [List.foldl_cons, h x (List.mem_cons_self x xs)]
      exact ih b fun y hy acc => h y (List.mem_cons_of_mem x hy) acc

lemma foldl_fixed_point {α β : Type} (f : β → α → β) (b : β) (l : List α)
    (h : ∀ x, f b x = b) : l.foldl f b = b := by
  induction l with
  | nil => rfl
  | cons x xs ih => rw [List.foldl_cons, h x]; exact ih

/-- C2: the claim states that the Min aggregate writes the minimum of the
valid-and-inside input elements; the code instead always writes the invalid
value, because the reset of the accumulator is a shadowed dead local
declaration and `std::min(NaN, x)` returns NaN.  At the failing input
`[5.0]` with thresholds `[-inf, +inf]` the claimed output is 5.0, the
code's output is invalid; in fact the output is invalid for every input. -/
theorem c2_aggregate_min_always_invalid :
    aggregate_min_step [D.fin 5] ⟨D.ninf, D.pinf⟩ = invalid_param ∧
    ∀ (input : List D) (t : Thresholds), aggregate_min_step input t = invalid_param := by
  have h : ∀ (input : List D) (t : Thresholds),
      aggregate_min_step input t = invalid_param := by
    intro input t
    refine foldl_fixed_point _ invalid_param input ?_
    intro x
    by_cases hx : is_valid_and_inside x t = true
    · simp only [hx, if_true]
      exact stdMin_invalid x
    · simp [hx]
  exact ⟨h _ _, h⟩

/-- C10: when no element is valid and inside the window, the Sum aggregate
writes the invalid value while the Multiplicity aggregate writes the valid
value 0.0. -/
theorem c10_empty_reduction (input : List D) (t : Thresholds)
    (h : ∀ x ∈ input, is_valid_and_inside x t = false) :
    aggregate_sum_step input t = invalid_param ∧
    aggregate_multiplicity_step input t = D.fin 0 := by
  constructor
  · show (if _ then _ else _) = invalid_param
    have hf : input.foldl
        (fun (acc : D × Bool) x =>
          if is_valid_and_inside x t then (D.add acc.1 x, true) else acc)
        (D.fin 0, false) = (D.fin 0, false) := by
      refine foldl_fixed_of_skip _ input _ ?_
      intro x hx acc
      simp [h x hx]
    simp only [aggregate_sum_step, hf]
    rfl
  · refine foldl_fixed_of_skip _ input _ ?_
    intro x hx acc
    simp [h x hx]

/-- C10 witness at a concrete input with one invalid and one
out-of-threshold element. -/
theorem c10_empty_reduction_witness :
    aggregate_sum_step [D.invalid, D.fin 20] ⟨D.fin 0, D.fin 10⟩ = invalid_param ∧
    aggregate_multiplicity_step [D.invalid, D.fin 20] ⟨D.fin 0, D.fin 10⟩ = D.fin 0 :=
  c10_empty_reduction [D.invalid, D.fin 20] ⟨D.fin 0, D.fin 10⟩ (by decide)

/-- C9: on `[1, 2, 3, invalid, 5]` with thresholds `[-inf, +inf]` the Mean
aggregate outputs 2.75 (= 11/4) and the Sigma aggregate outputs the
population standard deviation of {1, 2, 3, 5}: the square root of the mean
of the squared deviations over the 4 valid elements. -/
theorem c9_mean_sigma_values :
    aggregate_mean_step [D.fin 1, D.fin 2, D.fin 3, D.invalid, D.fin 5]
      ⟨D.ninf, D.pinf⟩ = D.fin (11 / 4) ∧
    aggregate_sigma_step [D.fin 1, D.fin 2, D.fin 3, D.invalid, D.fin 5]
      ⟨D.ninf, D.pinf⟩ =
      DR.fin (Real.sqrt
        (((1 - 11 / 4) ^ 2 + (2 - 11 / 4) ^ 2 + (3 - 11 / 4) ^ 2 + (5 - 11 / 4) ^ 2) / 4)) := by
  have h1 : calculate_sum_and_valid_count
      [D.fin 1, D.fin 2, D.fin 3, D.invalid, D.fin 5] ⟨D.ninf, D.pinf⟩ =
      ⟨D.fin 11, 4⟩ := by
    simp [calculate_sum_and_valid_count, is_valid_and_inside, is_param_valid,
      D.le, D.add]
    norm_num
  constructor
  · simp only [aggregate_mean_step, h1]
    norm_num [SumAndValidCount.mean, D.div]
  · have h2 : aggregate_sigma_accum
        [D.fin 1, D.fin 2, D.fin 3, D.invalid, D.fin 5] ⟨D.ninf, D.pinf⟩
        (SumAndValidCount.mean ⟨D.fin 11, 4⟩) = D.fin (35 / 4) := by
      simp [aggregate_sigma_accum, SumAndValidCount.mean, is_valid_and_inside,
        is_param_valid, D.le, D.add, D.sub, D.neg, D.mul, D.div]
      norm_num
    have h3 : D.div (D.fin (35 / 4)) (D.fin ((4 : ℕ) : ℚ)) = D.fin (35 / 16) := by
      simp [D.div]
      norm_num
    simp only [aggregate_sigma_step, h1, h2, h3]
    norm_num [dsqrt]

lemma getD_map_of_lt {α β : Type} (f : α → β) (l : List α) (i : Nat) (d : β)
    (e : α) (h : i < l.length) : (l.map f).getD i d = f (l.getD i e) := by
  induction l generalizing i with
  | nil => simp at h
  | cons x xs ih =>
      cases i with
      | zero => rfl
      | succ j =>
          simp only [List.map_cons, List.getD_cons_succ]
          exact ih j (Nat.lt_of_succ_lt_succ h)

/-- C3 counterexample: at the invalid input element `[invalid]` both the
inverted and the non-inverted RangeFilter outputs are invalid, so the
outputs are not elementwise complementary as the claim states. -/
theorem c3_range_filter_counterexample :
    ¬ (is_param_valid
        ((range_filter_step [D.invalid] ⟨D.fin 0, D.fin 10⟩ true).getD 0 invalid_param) =
      !is_param_valid
        ((range_filter_step [D.invalid] ⟨D.fin 0, D.fin 10⟩ false).getD 0 invalid_param)) := by
  decide

/-- C3 (amended): at every position whose INPUT element is valid, the
invert=true output is valid exactly where the invert=false output is
invalid and vice versa, and both variants pass the input value through
unchanged wherever their output is valid; at invalid input positions both
outputs are invalid. -/
lemma D.le_invalid_right (a : D) : D.le a D.invalid = false := by
  cases a <;> rfl

lemma in_range_invalid (t : Thresholds) : in_range t D.invalid = false := by
  simp [in_range, D.le_invalid_right]

lemma is_param_valid_eq_false_iff (x : D) :
    is_param_valid x = false ↔ x = D.invalid := by
  cases x <;> simp [is_param_valid]

theorem c3_range_filter_invert_complement (input : List D) (t : Thresholds)
    (i : Nat) (h : i < input.length) :
    (is_param_valid (input.getD i invalid_param) = true →
      is_param_valid
          ((range_filter_step input t true).getD i invalid_param) =
      !is_param_valid
          ((range_filter_step input t false).getD i invalid_param)) ∧
    (is_param_valid ((range_filter_step input t true).getD i invalid_param) = true →
      (range_filter_step input t true).getD i invalid_param = input.getD i invalid_param) ∧
    (is_param_valid ((range_filter_step input t false).getD i invalid_param) = true →
      (range_filter_step input t false).getD i invalid_param = input.getD i invalid_param) ∧
    (is_param_valid (input.getD i invalid_param) = false →
      (range_filter_step input t true).getD i invalid_param = invalid_param ∧
      (range_filter_step input t false).getD i invalid_param = invalid_param) := by
  have hT : (range_filter_step input t true).getD i invalid_param =
      (if !(in_range t (input.getD i invalid_param)) then input.getD i invalid_param
       else invalid_param) := by
    simp only [range_filter_step, if_pos]
    exact getD_map_of_lt _ input i _ invalid_param h
  have hF : (range_filter_step input t false).getD i invalid_param =
      (if in_range t (input.getD i invalid_param) then input.getD i invalid_param
       else invalid_param) := by
    simp only [range_filter_step, if_neg]
    exact getD_map_of_lt _ input i _ invalid_param h
  rw [hT, hF]
  generalize input.getD i invalid_param = x
  by_cases hr : in_range t x = true
  · have hxv : is_param_valid x = true := by
      cases x
      · rw [in_range_invalid] at hr
        exact absurd hr (by simp)
      all_goals rfl
    simp [hr, hxv, invalid_param, show is_param_valid D.invalid = false from rfl]
  · rw [Bool.not_eq_true] at hr
    simp [hr, invalid_param, is_param_valid_eq_false_iff,
      show is_param_valid D.invalid = false from rfl]

/-- C3 witness: concrete instantiation at a valid in-window element. -/
theorem c3_range_filter_invert_complement_witness :
    is_param_valid
        ((range_filter_step [D.fin 5, D.fin 30] ⟨D.fin 0, D.fin 10⟩ true).getD 0 invalid_param) =
      !is_param_valid
        ((range_filter_step [D.fin 5, D.fin 30] ⟨D.fin 0, D.fin 10⟩ false).getD 0 invalid_param) :=
  (c3_range_filter_invert_complement [D.fin 5, D.fin 30] ⟨D.fin 0, D.fin 10⟩ 0
    (by decide)).1 (by decide)

/-- C5: boundary behaviour of `fill_h1d` on the `{min=0, range=10}`,
10-bin histogram, plus the general binning formula
`bin = floor((x - min) * binCount / range)` for in-range values (given the
documented `binningFactor = binCount / range`). -/
theorem c5_fill_h1d_binning :
    fill_h1d testH1D (D.fin 0) =
      { testH1D with data := (List.replicate 10 (0 : ℚ)).set 0 1, entryCount := 1 } ∧
    fill_h1d testH1D (D.fin (9999 / 1000)) =
      { testH1D with data := (List.replicate 10 (0 : ℚ)).set 9 1, entryCount := 1 } ∧
    (∀ x : D, D.le (D.fin 10) x = true →
      fill_h1d testH1D x = { testH1D with overflow := 1 }) ∧
    (∀ x : D, D.lt x (D.fin 0) = true →
      fill_h1d testH1D x = { testH1D with underflow := 1 }) ∧
    fill_h1d testH1D invalid_param = testH1D ∧
    (∀ (hh : H1D) (q : ℚ), hh.binningFactor = hh.size / hh.binning.range →
      hh.binning.min ≤ q → q < hh.binning.min + hh.binning.range →
      fill_h1d hh (D.fin q) =
        { hh with
            data := hh.data.set (⌊(q - hh.binning.min) * hh.size / hh.binning.range⌋).toNat
              (hh.data.getD (⌊(q - hh.binning.min) * hh.size / hh.binning.range⌋).toNat 0 + 1),
            entryCount := hh.entryCount + 1 }) := by
  have general : ∀ (hh : H1D) (q : ℚ), hh.binningFactor = hh.size / hh.binning.range →
      hh.binning.min ≤ q → q < hh.binning.min + hh.binning.range →
      fill_h1d hh (D.fin q) =
        { hh with
            data := hh.data.set (⌊(q - hh.binning.min) * hh.size / hh.binning.range⌋).toNat
              (hh.data.getD (⌊(q - hh.binning.min) * hh.size / hh.binning.range⌋).toNat 0 + 1),
            entryCount := hh.entryCount + 1 } := by
    intro hh q hbf hmin hlt
    have h1 : D.lt (D.fin q) (D.fin hh.binning.min) = false := by
      simp [D.lt]
      linarith
    have h2 : D.le (D.fin (hh.binning.min + hh.binning.range)) (D.fin q) = false := by
      simp [D.le]
      linarith
    have hr : (0 : ℚ) < hh.binning.range := by linarith
    have hnn : (0 : ℚ) ≤ (q - hh.binning.min) * (hh.size / hh.binning.range) := by
      apply mul_nonneg
      · linarith
      · positivity
    have hd : dtrunc ((q - hh.binning.min) * hh.binningFactor) =
        ⌊(q - hh.binning.min) * hh.size / hh.binning.range⌋ := by
      rw [hbf, dtrunc, if_pos hnn, mul_div_assoc]
    simp only [fill_h1d, h1, h2, Bool.false_eq_true, if_false, hd]
  refine ⟨?_, ?_, ?_, ?_, ?_, general⟩
  · rw [general testH1D 0 (by norm_num [testH1D]) (by norm_num [testH1D])
      (by norm_num [testH1D])]
    norm_num [testH1D]
  · rw [general testH1D (9999 / 1000) (by norm_num [testH1D]) (by norm_num [testH1D])
      (by norm_num [testH1D])]
    norm_num [testH1D]
    rfl
  · intro x hx
    rcases x with _ | _ | _ | q
    · simp [D.le] at hx
    · simp [D.le] at hx
    · simp [fill_h1d, testH1D, D.lt, D.le]
    · simp only [D.le, decide_eq_true_eq] at hx
      have h0 : ¬ ((q : ℚ) < 0) := by linarith
      simp [fill_h1d, testH1D, D.lt, D.le, h0, hx]
  · intro x hx
    rcases x with _ | _ | _ | q
    · simp [D.lt] at hx
    · simp [fill_h1d, testH1D, D.lt, D.le]
    · simp [D.lt] at hx
    · simp only [D.lt, decide_eq_true_eq] at hx
      simp [fill_h1d, testH1D, D.lt, D.le, hx]
  · rfl

/-- C5 witness: the overflow and underflow clauses applied at x=12 and
x=-3, and the general binning formula applied at x=5.5. -/
theorem c5_fill_h1d_binning_witness :
    fill_h1d testH1D (D.fin 12) = { testH1D with overflow := 1 } ∧
    fill_h1d testH1D (D.fin (-3)) = { testH1D with underflow := 1 } ∧
    fill_h1d testH1D (D.fin (11 / 2)) =
      { testH1D with
          data := (testH1D.data).set (⌊((11 / 2 : ℚ) - 0) * 10 / 10⌋).toNat
            ((testH1D.data).getD (⌊((11 / 2 : ℚ) - 0) * 10 / 10⌋).toNat 0 + 1),
          entryCount := testH1D.entryCount + 1 } := by
  refine ⟨c5_fill_h1d_binning.2.2.1 (D.fin 12) (by decide),
    c5_fill_h1d_binning.2.2.2.1 (D.fin (-3)) (by decide),
    ?_⟩
  have h := c5_fill_h1d_binning.2.2.2.2.2 testH1D (11 / 2)
    (by norm_num [testH1D]) (by norm_num [testH1D]) (by norm_num [testH1D])
  simpa [testH1D] using h

/- C1: the 3-node linear chain extractor → calibration → aggregate-sum.
Pipe 0 holds the extractor output, pipe 1 the calibration output, pipe 2
the sum output. -/

lemma D.add_fin (a b : ℚ) : D.add (D.fin a) (D.fin b) = D.fin (a + b) := rfl

lemma calibrate_fin (a b c k : ℚ) :
    calibrate (D.fin a) (D.fin b) (D.fin c) (D.fin k) = D.fin ((a - b) * k + c) := by
  have h : calibrate (D.fin a) (D.fin b) (D.fin c) (D.fin k) =
      D.fin ((a + -b) * k + c) := rfl
  rw [h]
  congr 1
  ring

lemma calibration_step_fin (xs pm cm f : List ℚ)
    (hpm : pm.length = xs.length) (hcm : cm.length = xs.length)
    (hf : f.length = xs.length) :
    calibration_step (xs.map D.fin) (pm.map D.fin) (cm.map D.fin) (f.map D.fin) =
      (calibratedValues xs pm cm f).map D.fin := by
  unfold calibration_step calibratedValues
  rw [List.map_map, List.length_map]
  apply List.map_congr_left
  intro i hi
  rw [List.mem_range] at hi
  rw [getD_map_of_lt D.fin xs i _ 0 hi,
    getD_map_of_lt D.fin pm i _ 0 (hpm ▸ hi),
    getD_map_of_lt D.fin cm i _ 0 (hcm ▸ hi),
    getD_map_of_lt D.fin f i _ 0 (hf ▸ hi)]
  exact calibrate_fin _ _ _ _

lemma is_valid_and_inside_fin_inf (r : ℚ) :
    is_valid_and_inside (D.fin r) ⟨D.ninf, D.pinf⟩ = true := rfl

lemma aggregate_sum_step_all_fin (qs : List ℚ) (h : qs ≠ []) :
    aggregate_sum_step (qs.map D.fin) ⟨D.ninf, D.pinf⟩ = D.fin qs.sum := by
  have fold : ∀ (l : List ℚ) (acc : ℚ),
      (l.map D.fin).foldl
        (fun (acc : D × Bool) x =>
          if is_valid_and_inside x ⟨D.ninf, D.pinf⟩ then (D.add acc.1 x, true) else acc)
        (D.fin acc, true) = (D.fin (acc + l.sum), true) := by
    intro l
    induction l with
    | nil => intro acc; simp
    | cons q rest ih =>
        intro acc
        simp only [List.map_cons, List.foldl_cons, is_valid_and_inside_fin_inf,
          if_true, D.add_fin]
        rw [ih (acc + q), List.sum_cons, Prod.mk.injEq]
        refine ⟨?_, rfl⟩
        congr 1
        ring
  obtain ⟨q, rest, rfl⟩ := List.exists_cons_of_ne_nil h
  show (if _ then _ else _) = _
  simp only [List.map_cons, List.foldl_cons, is_valid_and_inside_fin_inf,
    if_true, D.add_fin]
  rw [fold rest (0 + q)]
  simp only [if_true]
  rw [List.sum_cons]
  congr 1
  ring

/-- C1 counterexample: laying the operator array out as [sum, calibration]
(violating rank order) and stepping one event does NOT yield the sum of the
calibrated extractor outputs (which is 60 for this configuration): the sum
operator runs first and sees only the still-invalidated calibration output
pipe. -/
theorem c1_end_event_layout_counterexample :
    (calibratedValues [10, 20] [0, 0] [0, 0] [2, 2]).sum = 60 ∧
    getPipe (a2_end_event [] (chainEnv [10, 20])
        [chainSumOp, chainCalibOp [0, 0] [0, 0] [2, 2]]).1 2 ≠ [D.fin 60] := by
  constructor
  · norm_num [calibratedValues, List.range_succ]
  · decide

/-- C1 (amended): `a2_end_event` steps operators in array order; under the
source's documented precondition that the operator array is sorted by
ascending rank (calibration before sum for this chain), stepping one event
writes the sum of the calibrated extractor outputs to the sum operator's
output pipe, for every nonempty extractor output and calibration
configuration. -/
theorem c1_end_event_rank_order (xs pm cm f : List ℚ) (h0 : xs ≠ [])
    (hpm : pm.length = xs.length) (hcm : cm.length = xs.length)
    (hf : f.length = xs.length) :
    getPipe (a2_end_event [] (chainEnv xs) [chainCalibOp pm cm f, chainSumOp]).1 2 =
      [D.fin (calibratedValues xs pm cm f).sum] := by
  have hne : calibratedValues xs pm cm f ≠ [] := by
    intro hemp
    apply h0
    have hl := congrArg List.length hemp
    simp [calibratedValues] at hl
    exact hl
  have e : getPipe (a2_end_event [] (chainEnv xs)
      [chainCalibOp pm cm f, chainSumOp]).1 2 =
      [aggregate_sum_step
        (calibration_step (xs.map D.fin) (pm.map D.fin) (cm.map D.fin) (f.map D.fin))
        ⟨D.ninf, D.pinf⟩] := rfl
  rw [e, calibration_step_fin xs pm cm f hpm hcm hf,
    aggregate_sum_step_all_fin _ hne]

/-- C1 witness: the rank-ordered layout at a concrete configuration. -/
theorem c1_end_event_rank_order_witness :
    getPipe (a2_end_event [] (chainEnv [10, 20])
        [chainCalibOp [0, 0] [0, 0] [2, 2], chainSumOp]).1 2 =
      [D.fin ((calibratedValues [10, 20] [0, 0] [0, 0] [2, 2]).sum)] :=
  c1_end_event_rank_order [10, 20] [0, 0] [0, 0] [2, 2] (by decide)
    (by decide) (by decide) (by decide)

lemma getPipe_setPipe_ne (env : Env) (q p : Nat) (v : List D) (h : q ≠ p) :
    getPipe (setPipe env q v) p = getPipe env p := by
  simp only [getPipe, setPipe, List.getD, List.get?_eq_getElem?]
  rw [List.getElem?_set_ne h]

lemma step_operator_frame (env : Env) (op : Operator) (p : Nat)
    (h : op.output ≠ p) :
    getPipe (step_operator env op).1 p = getPipe env p := by
  rcases op with ⟨inp, ill, out, oll, ci, d⟩
  cases d <;> simp only [step_operator] <;>
    exact getPipe_setPipe_ne _ _ _ _ h

lemma a2_end_event_env_frame (bits : List Bool) (ops : List Operator)
    (env : Env) (p : Nat)
    (h : ∀ op2 ∈ ops, conditionOk bits op2 = true → op2.output ≠ p) :
    getPipe (a2_end_event bits env ops).1 p = getPipe env p := by
  induction ops generalizing env with
  | nil => rfl
  | cons op rest ih =>
      by_cases hc : conditionOk bits op = true
      · simp only [a2_end_event, hc, if_true]
        rw [ih (step_operator env op).1
          (fun op2 hm hok => h op2 (List.mem_cons_of_mem op hm) hok)]
        exact step_operator_frame env op p (h op (List.mem_cons_self op rest) hc)
      · simp only [a2_end_event, hc, if_false]
        exact ih env (fun op2 hm hok => h op2 (List.mem_cons_of_mem op hm) hok)

lemma a2_end_event_ops_getD (bits : List Bool) (ops : List Operator)
    (env : Env) (i : Nat)
    (hci : (ops.getD i default).conditionIndex ≥ 0)
    (hbit : bits.getD (ops.getD i default).conditionIndex.toNat false = false) :
    (a2_end_event bits env ops).2.getD i default = ops.getD i default := by
  induction ops generalizing env i with
  | nil => rfl
  | cons op rest ih =>
      cases i with
      | zero =>
          have hok : conditionOk bits op = false := by
            simp only [List.getD_cons_zero] at hci hbit
            simp only [conditionOk, Bool.or_eq_false_iff]
            exact ⟨by simp only [decide_eq_false_iff_not]; omega, hbit⟩
          simp only [a2_end_event, hok, if_false]
          rfl
      | succ j =>
          by_cases hc : conditionOk bits op = true
          · simp only [a2_end_event, hc, if_true]
            exact ih _ j hci hbit
          · simp only [a2_end_event, hc, if_false]
            exact ih _ j hci hbit

/-- C6: an operator carrying a non-negative condition index whose condition
bit is unset is not stepped by `a2_end_event`: its operator record
(including its per-operator state payload) is returned unchanged, and —
provided no ENABLED operator writes the same output pipe (each operator
owns its outputs in a well-formed graph) — its output pipe is left exactly
as it was before the call. -/
theorem c6_condition_gate_frame (bits : List Bool) (env : Env)
    (ops : List Operator) (i : Nat) (hi : i < ops.length)
    (hci : (ops.getD i default).conditionIndex ≥ 0)
    (hbit : bits.getD (ops.getD i default).conditionIndex.toNat false = false) :
    (a2_end_event bits env ops).2.getD i default = ops.getD i default ∧
    ((∀ op2 ∈ ops, conditionOk bits op2 = true →
        op2.output ≠ (ops.getD i default).output) →
      getPipe (a2_end_event bits env ops).1 ((ops.getD i default).output) =
        getPipe env ((ops.getD i default).output)) :=
  ⟨a2_end_event_ops_getD bits ops env i hci hbit,
   fun h => a2_end_event_env_frame bits ops env _ h⟩

/-- C6 witness: a calibration operator gated on unset bit 0, laid out with
an enabled sum operator writing a different pipe. -/
theorem c6_condition_gate_frame_witness :
    ((a2_end_event [false] [[D.fin 1], [D.fin 2], [D.fin 3]]
        [⟨0, [], 1, [], 0, .calibration []⟩, chainSumOp]).2.getD 0 default =
      ⟨0, [], 1, [], 0, .calibration []⟩) ∧
    getPipe (a2_end_event [false] [[D.fin 1], [D.fin 2], [D.fin 3]]
        [⟨0, [], 1, [], 0, .calibration []⟩, chainSumOp]).1 1 =
      getPipe [[D.fin 1], [D.fin 2], [D.fin 3]] 1 := by
  have h := c6_condition_gate_frame [false] [[D.fin 1], [D.fin 2], [D.fin 3]]
    [⟨0, [], 1, [], 0, .calibration []⟩, chainSumOp] 0
    (by decide) (by decide) (by decide)
  exact ⟨h.1, h.2 (by decide)⟩

lemma epmd_replay {σ : Type} (fm : FilterModel σ) (words : List Nat) :
    ∀ (ds : DataSourceState σ) (wi : Nat),
      (extractor_process_module_data fm ds words wi).output =
        ((attemptsFrom ds.ex.requiredCompletions ds.ex.currentCompletions
            (completions fm ds.ex.filter words wi)).foldl
            (applyAttempt ds.ex.noAddedRandom ds.ex.rng)
            ⟨ds.output, ds.hitCounts, ds.ex.rngIndex⟩).output ∧
      (extractor_process_module_data fm ds words wi).hitCounts =
        ((attemptsFrom ds.ex.requiredCompletions ds.ex.currentCompletions
            (completions fm ds.ex.filter words wi)).foldl
            (applyAttempt ds.ex.noAddedRandom ds.ex.rng)
            ⟨ds.output, ds.hitCounts, ds.ex.rngIndex⟩).hitCounts := by
  induction words with
  | nil =>
      intro ds wi
      exact ⟨rfl, rfl⟩
  | cons w rest ih =>
      intro ds wi
      simp only [extractor_process_module_data, completions]
      by_cases hm : (fm.processData ds.ex.filter w wi).1 = true
      · rw [if_pos hm, if_pos hm]
        by_cases hreq : ds.ex.currentCompletions + 1 ≥ ds.ex.requiredCompletions
        · rw [if_pos hreq]
          simp only [attemptsFrom]
          rw [if_pos hreq, List.foldl_cons]
          exact ih _ (wi + 1)
        · rw [if_neg hreq]
          simp only [attemptsFrom]
          rw [if_neg hreq]
          exact ih _ (wi + 1)
      · rw [if_neg hm, if_neg hm]
        exact ih _ (wi + 1)

lemma attemptsFrom_eq_nil {α : Type} (required : Nat) :
    ∀ (l : List α) (c : Nat), c + l.length < required →
      attemptsFrom required c l = [] := by
  intro l
  induction l with
  | nil => intro c _; rfl
  | cons x xs ih =>
      intro c h
      simp only [List.length_cons] at h
      simp only [attemptsFrom]
      rw [if_neg (by omega)]
      exact ih (c + 1) (by omega)

lemma attemptsFrom_eq_single {α : Type} (required : Nat) (d : α) :
    ∀ (l : List α) (c : Nat), l ≠ [] → c + l.length = required →
      attemptsFrom required c l = [l.getD (l.length - 1) d] := by
  intro l
  induction l with
  | nil => intro c hne _; exact absurd rfl hne
  | cons x xs ih =>
      intro c _ h
      simp only [List.length_cons] at h
      simp only [attemptsFrom]
      by_cases hxs : xs = []
      · subst hxs
        rw [if_pos (by simp only [List.length_nil] at h; omega)]
        rfl
      · have hlen : 1 ≤ xs.length := List.length_pos.mpr hxs
        rw [if_neg (by omega)]
        rw [ih (c + 1) hxs (by omega)]
        have e1 : (x :: xs).length - 1 = (xs.length - 1) + 1 := by
          simp only [List.length_cons]
          omega
        rw [e1, List.getD_cons_succ]

lemma attemptsFrom_eq_pair {α : Type} (required : Nat) (d : α) :
    ∀ (l : List α) (c : Nat), c < required → c + l.length = 2 * required →
      attemptsFrom required c l =
        [l.getD (required - 1 - c) d, l.getD (2 * required - 1 - c) d] := by
  intro l
  induction l with
  | nil =>
      intro c hc h
      simp only [List.length_nil] at h
      omega
  | cons x xs ih =>
      intro c hc h
      simp only [List.length_cons] at h
      simp only [attemptsFrom]
      by_cases hend : c + 1 ≥ required
      · rw [if_pos hend]
        have hc1 : c = required - 1 := by omega
        have hxslen : xs.length = required := by omega
        have hxs : xs ≠ [] := by
          intro he
          subst he
          simp only [List.length_nil] at hxslen
          omega
        rw [attemptsFrom_eq_single required d xs 0 hxs (by omega)]
        have e0 : required - 1 - c = 0 := by omega
        have e2 : 2 * required - 1 - c = required := by omega
        rw [e0, e2, List.getD_cons_zero]
        have e3 : (required : Nat) = (xs.length - 1) + 1 := by omega
        rw [e3, List.getD_cons_succ, hxslen]
      · rw [if_neg hend]
        rw [ih (c + 1) (by omega) (by omega)]
        have e1 : required - 1 - c = (required - 1 - (c + 1)) + 1 := by omega
        have e2 : 2 * required - 1 - c = (2 * required - 1 - (c + 1)) + 1 := by omega
        rw [e1, e2, List.getD_cons_succ, List.getD_cons_succ]

lemma getD_replicate_invalid (n a : Nat) :
    (List.replicate n invalid_param).getD a invalid_param = invalid_param := by
  induction n generalizing a with
  | zero => rfl
  | succ m ih =>
      cases a with
      | zero => rfl
      | succ b =>
          simp only [List.replicate_succ, List.getD_cons_succ]
          exact ih b

/-- One first-hit write into an all-invalid output vector. -/
lemma applyAttempt_fresh (noR : Bool) (rng : Nat → ℚ) (out : List D)
    (hits : List ℚ) (ri : Nat) (a v : Nat)
    (hinv : out.getD a invalid_param = invalid_param) :
    applyAttempt noR rng ⟨out, hits, ri⟩ (a, v) =
      ⟨out.set a (D.fin (if !noR then (v : ℚ) + rng ri else (v : ℚ))),
       hits.set a (hits.getD a 0 + 1),
       if !noR then ri + 1 else ri⟩ := by
  simp only [applyAttempt, extractor_write, hinv]
  rw [if_pos (by rfl)]

lemma applyAttempt_skip (noR : Bool) (rng : Nat → ℚ) (out : List D)
    (hits : List ℚ) (ri : Nat) (a v : Nat)
    (hvalid : is_param_valid (out.getD a invalid_param) = true) :
    applyAttempt noR rng ⟨out, hits, ri⟩ (a, v) = ⟨out, hits, ri⟩ := by
  simp only [applyAttempt, extractor_write, hvalid]
  rfl

lemma getD_set_self_D (l : List D) (a : Nat) (x : D) (h : a < l.length) :
    (l.set a x).getD a invalid_param = x := by
  simp [List.getD, List.getElem?_set_self h]

/-- C4: within one event (after begin-event invalidated the output), a word
sequence completing the filter exactly `requiredCompletions` times writes
exactly one value, at the address decoded at the completing match, and
bumps that slot's hit count once; fewer completions write nothing; and with
`2 * requiredCompletions` completions whose two triggering matches decode
to the same address, the second write attempt is a no-op (first-hit-wins):
the result equals the single first write. -/
theorem c4_extractor_first_hit_writes {σ : Type} (fm : FilterModel σ)
    (ds : DataSourceState σ) (words : List Nat)
    (hreq : 1 ≤ ds.ex.requiredCompletions) :
    ((eventCompletions fm ds words).length = ds.ex.requiredCompletions →
      ∀ a v, (eventCompletions fm ds words).getD
          (ds.ex.requiredCompletions - 1) (0, 0) = (a, v) →
        a < ds.output.length →
        (eventResult fm ds words).output =
          (List.replicate ds.output.length invalid_param).set a
            (D.fin (jitteredValue ds v)) ∧
        (eventResult fm ds words).hitCounts =
          ds.hitCounts.set a (ds.hitCounts.getD a 0 + 1)) ∧
    ((eventCompletions fm ds words).length < ds.ex.requiredCompletions →
      (eventResult fm ds words).output =
        List.replicate ds.output.length invalid_param ∧
      (eventResult fm ds words).hitCounts = ds.hitCounts) ∧
    ((eventCompletions fm ds words).length = 2 * ds.ex.requiredCompletions →
      ∀ a v1 v2, (eventCompletions fm ds words).getD
          (ds.ex.requiredCompletions - 1) (0, 0) = (a, v1) →
        (eventCompletions fm ds words).getD
          (2 * ds.ex.requiredCompletions - 1) (0, 0) = (a, v2) →
        a < ds.output.length →
        (eventResult fm ds words).output =
          (List.replicate ds.output.length invalid_param).set a
            (D.fin (jitteredValue ds v1)) ∧
        (eventResult fm ds words).hitCounts =
          ds.hitCounts.set a (ds.hitCounts.getD a 0 + 1)) := by
  obtain ⟨hro, hrh⟩ := epmd_replay fm words (extractor_begin_event fm ds) 0
  rw [show (extractor_begin_event fm ds).ex.currentCompletions = 0 from rfl,
    show (extractor_begin_event fm ds).ex.requiredCompletions =
      ds.ex.requiredCompletions from rfl,
    show (extractor_begin_event fm ds).ex.noAddedRandom =
      ds.ex.noAddedRandom from rfl,
    show (extractor_begin_event fm ds).ex.rng = ds.ex.rng from rfl,
    show (extractor_begin_event fm ds).ex.rngIndex = ds.ex.rngIndex from rfl,
    show (extractor_begin_event fm ds).hitCounts = ds.hitCounts from rfl,
    show (extractor_begin_event fm ds).output =
      List.replicate ds.output.length invalid_param from rfl,
    show completions fm (extractor_begin_event fm ds).ex.filter words 0 =
      eventCompletions fm ds words from rfl,
    show extractor_process_module_data fm (extractor_begin_event fm ds) words 0 =
      eventResult fm ds words from rfl] at hro hrh
  refine ⟨?_, ?_, ?_⟩
  · intro hlen a v hget hbound
    have hne : eventCompletions fm ds words ≠ [] := by
      intro he
      rw [he] at hlen
      simp only [List.length_nil] at hlen
      omega
    rw [attemptsFrom_eq_single _ (0, 0) _ _ hne (by omega)] at hro hrh
    have hget2 : (eventCompletions fm ds words).getD
        ((eventCompletions fm ds words).length - 1) (0, 0) = (a, v) := by
      rw [hlen]
      exact hget
    rw [hget2, List.foldl_cons, List.foldl_nil,
      applyAttempt_fresh _ _ _ _ _ _ _
        (getD_replicate_invalid ds.output.length a)] at hro hrh
    exact ⟨hro, hrh⟩
  · intro hlen
    rw [attemptsFrom_eq_nil _ _ _ (by simpa using hlen), List.foldl_nil] at hro hrh
    exact ⟨hro, hrh⟩
  · intro hlen a v1 v2 hget1 hget2 hbound
    rw [attemptsFrom_eq_pair _ (0, 0) _ _ (by omega) (by omega)] at hro hrh
    rw [show ds.ex.requiredCompletions - 1 - 0 = ds.ex.requiredCompletions - 1
        from rfl,
      show 2 * ds.ex.requiredCompletions - 1 - 0 =
        2 * ds.ex.requiredCompletions - 1 from rfl] at hro hrh
    rw [hget1, hget2, List.foldl_cons, List.foldl_cons, List.foldl_nil,
      applyAttempt_fresh _ _ _ _ _ _ _
        (getD_replicate_invalid ds.output.length a)] at hro hrh
    rw [applyAttempt_skip _ _ _ _ _ _ _ (by
      rw [getD_set_self_D _ _ _ (by simpa using hbound)]
      rfl)] at hro hrh
    exact ⟨hro, hrh⟩

/-- C4 witness: the exactly-requiredCompletions clause at a concrete word
sequence with two matches. -/
theorem c4_extractor_first_hit_writes_witness :
    (eventResult witnessFilter witnessDS [105, 3, 110]).output =
      (List.replicate witnessDS.output.length invalid_param).set 2
        (D.fin (jitteredValue witnessDS 13)) ∧
    (eventResult witnessFilter witnessDS [105, 3, 110]).hitCounts =
      witnessDS.hitCounts.set 2 (witnessDS.hitCounts.getD 2 0 + 1) :=
  (c4_extractor_first_hit_writes witnessFilter witnessDS [105, 3, 110]
    (by decide)).1 (by decide) 2 13 (by decide) (by decide)

lemma validIndicesAux_length (vec : List D) :
    ∀ i : Nat, (validIndicesAux vec i).length =
      vec.countP (fun x => is_param_valid x) := by
  induction vec with
  | nil => intro i; rfl
  | cons x xs ih =>
      intro i
      by_cases hx : is_param_valid x = true
      · simp [validIndicesAux, hx, List.countP_cons, ih]
      · simp only [Bool.not_eq_true] at hx
        simp [validIndicesAux, hx, List.countP_cons, ih]

lemma validIndicesAux_ge (vec : List D) :
    ∀ (i j : Nat), j ∈ validIndicesAux vec i → i ≤ j := by
  induction vec with
  | nil => intro i j hj; simp [validIndicesAux] at hj
  | cons x xs ih =>
      intro i j hj
      by_cases hx : is_param_valid x = true
      · simp only [validIndicesAux, hx, if_true, List.mem_cons] at hj
        rcases hj with rfl | hj
        · exact Nat.le_refl j
        · exact Nat.le_of_succ_le (ih (i + 1) j hj)
      · rw [Bool.not_eq_true] at hx
        simp only [validIndicesAux, hx, Bool.false_eq_true, if_false] at hj
        exact Nat.le_of_succ_le (ih (i + 1) j hj)

lemma validIndicesAux_pairwise (vec : List D) :
    ∀ i : Nat, List.Pairwise (· < ·) (validIndicesAux vec i) := by
  induction vec with
  | nil => intro i; exact List.Pairwise.nil
  | cons x xs ih =>
      intro i
      by_cases hx : is_param_valid x = true
      · simp only [validIndicesAux, hx, if_true]
        exact List.Pairwise.cons
          (fun j hj => Nat.lt_of_succ_le (validIndicesAux_ge xs (i + 1) j hj))
          (ih (i + 1))
      · rw [Bool.not_eq_true] at hx
        simp only [validIndicesAux, hx]
        exact ih (i + 1)

lemma validIndicesAux_mem (vec : List D) :
    ∀ (i j : Nat), j ∈ validIndicesAux vec i ↔
      (i ≤ j ∧ j - i < vec.length ∧
        is_param_valid (vec.getD (j - i) invalid_param) = true) := by
  induction vec with
  | nil =>
      intro i j
      simp [validIndicesAux]
  | cons x xs ih =>
      intro i j
      constructor
      · intro hj
        by_cases hx : is_param_valid x = true
        · simp only [validIndicesAux, hx, if_true, List.mem_cons] at hj
          rcases hj with rfl | hj
          · refine ⟨Nat.le_refl j, ?_, ?_⟩ <;> simp [hx]
          · have hge := validIndicesAux_ge xs (i + 1) j hj
            have h2 := (ih (i + 1) j).mp hj
            refine ⟨by omega, ?_, ?_⟩
            · simp only [List.length_cons]
              omega
            · have e : j - i = (j - (i + 1)) + 1 := by omega
              rw [e, List.getD_cons_succ]
              exact h2.2.2
        · rw [Bool.not_eq_true] at hx
          simp only [validIndicesAux, hx] at hj
          have hge := validIndicesAux_ge xs (i + 1) j hj
          have h2 := (ih (i + 1) j).mp hj
          refine ⟨by omega, ?_, ?_⟩
          · simp only [List.length_cons]
            omega
          · have e : j - i = (j - (i + 1)) + 1 := by omega
            rw [e, List.getD_cons_succ]
            exact h2.2.2
      · rintro ⟨hij, hlen, hval⟩
        by_cases hji : j = i
        · subst hji
          simp only [Nat.sub_self, List.getD_cons_zero] at hval
          simp [validIndicesAux, hval]
        · have e : j - i = (j - (i + 1)) + 1 := by omega
          rw [e, List.getD_cons_succ] at hval
          have hmem : j ∈ validIndicesAux xs (i + 1) :=
            (ih (i + 1) j).mpr ⟨by omega, by simp only [List.length_cons] at hlen; omega, hval⟩
          by_cases hx : is_param_valid x = true
          · simp [validIndicesAux, hx, hmem]
          · rw [Bool.not_eq_true] at hx
            simp [validIndicesAux, hx, hmem]

lemma validIndicesAux_map_getD (vec : List D) :
    ∀ i : Nat, (validIndicesAux vec i).map (fun j => vec.getD (j - i) invalid_param) =
      vec.filter (fun x => is_param_valid x) := by
  induction vec with
  | nil => intro i; rfl
  | cons x xs ih =>
      intro i
      have hmapeq : (validIndicesAux xs (i + 1)).map
          (fun j => (x :: xs).getD (j - i) invalid_param) =
          (validIndicesAux xs (i + 1)).map (fun j => xs.getD (j - (i + 1)) invalid_param) := by
        apply List.map_congr_left
        intro j hj
        have hge := validIndicesAux_ge xs (i + 1) j hj
        have e : j - i = (j - (i + 1)) + 1 := by omega
        rw [e, List.getD_cons_succ]
      by_cases hx : is_param_valid x = true
      · simp only [validIndicesAux, hx, if_true, List.map_cons, Nat.sub_self,
          List.getD_cons_zero, List.filter_cons_of_pos hx, hmapeq, ih (i + 1)]
      · have hxf : is_param_valid x = false := by rw [Bool.not_eq_true] at hx; exact hx
        rw [List.filter_cons_of_neg (by simp [hxf])]
        simp only [validIndicesAux, hxf, Bool.false_eq_true, if_false]
        rw [hmapeq, ih (i + 1)]

lemma drop_succ_set {α : Type} (l : List α) (v : α) :
    ∀ i : Nat, (l.set i v).drop (i + 1) = l.drop (i + 1) := by
  induction l with
  | nil => intro i; rfl
  | cons a t ih =>
      intro i
      cases i with
      | zero => rfl
      | succ j =>
          simp only [List.set_cons_succ, List.drop_succ_cons]
          exact ih j

lemma take_succ_set {α : Type} (l : List α) (v : α) :
    ∀ i : Nat, i < l.length → (l.set i v).take (i + 1) = l.take i ++ [v] := by
  induction l with
  | nil => intro i hi; simp at hi
  | cons a t ih =>
      intro i hi
      cases i with
      | zero => rfl
      | succ j =>
          simp only [List.set_cons_succ, List.take_succ_cons, List.take_cons]
          rw [ih j (by simpa using hi)]
          rfl

lemma decode_fill (vec : List D) :
    ∀ (i : Nat) (acc : List D), acc.length = i + vec.length →
      acc.drop i = List.replicate vec.length D.invalid →
      ((validIndicesAux vec i).zip
          (vec.filter (fun x => is_param_valid x))).foldl
        (fun a p => a.set p.1 p.2) acc = acc.take i ++ vec := by
  induction vec with
  | nil =>
      intro i acc hlen _
      simp only [List.length_nil] at hlen
      simp only [validIndicesAux, List.zip_nil_left, List.foldl_nil]
      rw [List.take_of_length_le (by omega), List.append_nil]
  | cons x xs ih =>
      intro i acc hlen hdrop
      simp only [List.length_cons] at hlen
      rw [List.length_cons, List.replicate_succ] at hdrop
      have hlt : i < acc.length := by omega
      have hdrop1 : acc.drop (i + 1) = List.replicate xs.length D.invalid := by
        have h1 : acc.drop (i + 1) = (acc.drop i).drop 1 := by
          rw [List.drop_drop, Nat.add_comm]
        rw [h1, hdrop, List.drop_succ_cons, List.drop_zero]
      have hgetI : acc[i]? = some D.invalid := by
        have h0 := List.getElem?_drop acc i 0
        rw [Nat.add_zero] at h0
        rw [hdrop, List.getElem?_cons_zero] at h0
        exact h0.symm
      by_cases hx : is_param_valid x = true
      · rw [List.filter_cons_of_pos hx]
        simp only [validIndicesAux, hx, if_true, List.zip_cons_cons, List.foldl_cons]
        rw [ih (i + 1) (acc.set i x)
          (by simp only [List.length_set]; omega)
          (by rw [drop_succ_set]; exact hdrop1)]
        rw [take_succ_set acc x i hlt, List.append_assoc, List.singleton_append]
      · have hxf : is_param_valid x = false := by rw [Bool.not_eq_true] at hx; exact hx
        have hxi : x = D.invalid := (is_param_valid_eq_false_iff x).mp hxf
        rw [List.filter_cons_of_neg (by simp [hxf])]
        simp only [validIndicesAux, hxf, Bool.false_eq_true, if_false]
        rw [ih (i + 1) acc (by omega) hdrop1]
        rw [List.take_succ, hgetI]
        subst hxi
        rw [List.append_assoc]
        rfl

/-- C7: the sparse export encoding writes the u16 count of valid elements,
then the ascending u16 indices of exactly the valid elements, then the
corresponding double values; decoding reproduces the original vector
(original valid values at their original indices, invalid everywhere
else). -/
theorem c7_sparse_export_round_trip (vec : List D)
    (hsz : vec.length ≤ 65535) :
    (validIndicesAux vec 0).length = vec.countP (fun x => is_param_valid x) ∧
    List.Pairwise (· < ·) (validIndicesAux vec 0) ∧
    (∀ j : Nat, j ∈ validIndicesAux vec 0 ↔
      (j < vec.length ∧ is_param_valid (vec.getD j invalid_param) = true)) ∧
    (validIndicesAux vec 0).map (fun j => vec.getD j invalid_param) =
      vec.filter (fun x => is_param_valid x) ∧
    decode_indexed_parameter_vector vec.length
      (write_indexed_parameter_vector vec) = some vec := by
  have hlen : (validIndicesAux vec 0).length =
      vec.countP (fun x => is_param_valid x) := validIndicesAux_length vec 0
  have hflen : (vec.filter (fun x => is_param_valid x)).length =
      vec.countP (fun x => is_param_valid x) :=
    (List.countP_eq_length_filter _ _).symm
  refine ⟨hlen, validIndicesAux_pairwise vec 0, ?_, ?_, ?_⟩
  · intro j
    have := validIndicesAux_mem vec 0 j
    simpa using this
  · have := validIndicesAux_map_getD vec 0
    simpa using this
  · have hidxlen : ((validIndicesAux vec 0).map ExportToken.u16).length =
        vec.countP (fun x => is_param_valid x) := by
      rw [List.length_map]
      exact hlen
    simp only [write_indexed_parameter_vector, decode_indexed_parameter_vector]
    rw [if_pos (by
      rw [List.length_append, List.length_map, List.length_map, hlen, hflen]
      omega)]
    rw [show vec.countP (fun x => is_param_valid x) =
        ((validIndicesAux vec 0).map ExportToken.u16).length from hidxlen.symm,
      List.take_left, List.drop_left]
    rw [List.filterMap_map, List.filterMap_map]
    rw [show ((fun t => match t with
          | ExportToken.u16 i => some i
          | _ => none) ∘ ExportToken.u16) = some from rfl]
    rw [show ((fun t => match t with
          | ExportToken.f64 d => some d
          | _ => none) ∘ ExportToken.f64) = some from rfl]
    rw [List.filterMap_some, List.filterMap_some]
    rw [if_pos (by
      constructor
      · rw [hlen, hidxlen]
      · rw [hflen, hidxlen])]
    rw [decode_fill vec 0 (List.replicate vec.length invalid_param)
      (by simp) (by rw [List.drop_zero]; rfl)]
    rw [List.take_zero, List.nil_append]

/-- C7 witness: round trip over a concrete vector with a mixed
valid/invalid pattern. -/
theorem c7_sparse_export_round_trip_witness :
    decode_indexed_parameter_vector
        ([D.invalid, D.fin 3, D.invalid, D.fin 7] : List D).length
        (write_indexed_parameter_vector [D.invalid, D.fin 3, D.invalid, D.fin 7]) =
      some [D.invalid, D.fin 3, D.invalid, D.fin 7] :=
  (c7_sparse_export_round_trip [D.invalid, D.fin 3, D.invalid, D.fin 7]
    (by decide)).2.2.2.2

lemma writeVec_no_throw (s : OStream) (tks : List ExportToken)
    (h : (writeVec s tks).2 = false) : (writeVec s tks).1.goodFlag = s.goodFlag := by
  unfold writeVec at *
  rcases hp : s.plan s.opCount with _ | j
  · rfl
  · rw [hp] at h
    simp at h

lemma export_write_loop_no_throw_good (blocks : List (List ExportToken)) :
    ∀ s : OStream, (export_write_loop s blocks).2.2 = false →
      (export_write_loop s blocks).1.goodFlag = s.goodFlag := by
  induction blocks with
  | nil => intro s _; rfl
  | cons tks rest ih =>
      intro s h
      by_cases hg : s.goodFlag = true
      · simp only [export_write_loop, hg, Bool.not_true, Bool.false_eq_true,
          if_false] at h ⊢
        by_cases hw : (writeVec s tks).2 = true
        · rw [if_pos hw] at h
          simp at h
        · rw [Bool.not_eq_true] at hw
          rw [if_neg (by simp [hw])] at h ⊢
          have h2 : (export_write_loop (writeVec s tks).1 rest).2.2 = false := h
          show (export_write_loop (writeVec s tks).1 rest).1.goodFlag = true
          rw [ih (writeVec s tks).1 h2, writeVec_no_throw s tks hw, hg]
      · rw [Bool.not_eq_true] at hg
        simp only [export_write_loop, hg, Bool.not_false, if_true]

lemma guarded_step_identity (d : ExportSinkData) (cv : Option D)
    (blocks : List (List ExportToken)) (s : OStream)
    (hs : d.stream = some s) (hg : s.goodFlag = false) :
    export_sink_guarded_step d cv blocks = d := by
  simp only [export_sink_guarded_step, hs]
  rcases cv with _ | c
  · rw [hg]
    rfl
  · by_cases hc : is_param_valid c = true
    · simp only [hc, Bool.not_true, Bool.false_eq_true, if_false, hg]
    · rw [Bool.not_eq_true] at hc
      simp only [hc, Bool.not_false, if_true]

lemma guarded_step_latch (d : ExportSinkData) (cv : Option D)
    (blocks : List (List ExportToken)) (s s2 : OStream)
    (hs : d.stream = some s) (hg : s.goodFlag = true)
    (hs2 : (export_sink_guarded_step d cv blocks).stream = some s2)
    (hg2 : s2.goodFlag = false) :
    (export_sink_guarded_step d cv blocks).lastError ≠ none := by
  simp only [export_sink_guarded_step, hs] at hs2 ⊢
  rcases cv with _ | c
  · rw [hg] at hs2 ⊢
    by_cases ht : (export_write_loop s blocks).2.2 = true
    · simp only [ht, if_true, if_pos]
      simp
    · rw [Bool.not_eq_true] at ht
      simp only [ht, Bool.false_eq_true, if_false, if_true] at hs2
      simp only [Option.some.injEq] at hs2
      rw [← hs2] at hg2
      rw [export_write_loop_no_throw_good blocks s ht] at hg2
      rw [hg] at hg2
      simp at hg2
  · by_cases hc : is_param_valid c = true
    · simp only [hc, Bool.not_true, Bool.false_eq_true, if_false, hg] at hs2 ⊢
      by_cases ht : (export_write_loop s blocks).2.2 = true
      · simp only [ht, if_true, if_pos]
        simp
      · rw [Bool.not_eq_true] at ht
        simp only [ht, Bool.false_eq_true, if_false, if_true] at hs2
        simp only [Option.some.injEq] at hs2
        rw [← hs2] at hg2
        rw [export_write_loop_no_throw_good blocks s ht] at hg2
        rw [hg] at hg2
        simp at hg2
    · rw [Bool.not_eq_true] at hc
      simp only [hc, Bool.not_false, if_true] at hs2
      rw [hs] at hs2
      simp only [Option.some.injEq] at hs2
      rw [← hs2] at hg2
      rw [hg] at hg2
      simp at hg2

/-- C8: once the export sink's stream reports a failure, every later step
of that sink (Full or Sparse) is a complete no-op — no write attempts, no
state change; and whenever a step turns a healthy stream bad (a write
threw), the sink's last-error string is set.  Both step functions are total:
the failure never escapes them. -/
theorem c8_export_sink_error_latch :
    (∀ (d : ExportSinkData) (s : OStream) (cv : Option D)
        (inputs : List (List D)),
      d.stream = some s → s.goodFlag = false →
      export_sink_full_step d cv inputs = d ∧
      export_sink_sparse_step d cv inputs = d) ∧
    (∀ (d : ExportSinkData) (s s2 : OStream) (cv : Option D)
        (inputs : List (List D)),
      d.stream = some s → s.goodFlag = true →
      ((export_sink_full_step d cv inputs).stream = some s2 →
        s2.goodFlag = false →
        (export_sink_full_step d cv inputs).lastError ≠ none) ∧
      ((export_sink_sparse_step d cv inputs).stream = some s2 →
        s2.goodFlag = false →
        (export_sink_sparse_step d cv inputs).lastError ≠ none)) := by
  constructor
  · intro d s cv inputs hs hg
    exact ⟨guarded_step_identity d cv _ s hs hg,
      guarded_step_identity d cv _ s hs hg⟩
  · intro d s s2 cv inputs hs hg
    exact ⟨fun hs2 hg2 => guarded_step_latch d cv _ s s2 hs hg hs2 hg2,
      fun hs2 hg2 => guarded_step_latch d cv _ s s2 hs hg hs2 hg2⟩

/-- C8 witness: stepping the already-failed sink changes nothing. -/
theorem c8_export_sink_error_latch_witness :
    export_sink_full_step failedSink none [[D.fin 1, D.fin 2]] = failedSink ∧
    export_sink_sparse_step failedSink none [[D.fin 1, D.fin 2]] = failedSink :=
  c8_export_sink_error_latch.1 failedSink
    { plan := fun _ => none, opCount := 3, goodFlag := false, written := [] }
    none [[D.fin 1, D.fin 2]] rfl rfl
